import Mathlib

/-!
Verification of the wasm-paths text layout core (src/wasm-paths/src/lib.rs).
The file gives a shallow embedding of the data model and the algorithms of
the source: line wrapping (ParagraphInfo::new), glyph translation
(GlyphPath::translate), font fallback resolution, bidi paragraph display
trimming and the document layout loop. Machine floats (f64) are modelled
exactly by the rationals; external collaborators (bidi analysis, line break
segmentation, glyph shaping) appear as function parameters.
-/

namespace WasmPaths

/-- Model of glam DVec2: a pair of rational coordinates standing for f64. -/
abbrev DVec2 : Type := ℚ × ℚ

/-- Model of glam DAffine2: a two-by-two matrix plus translation, carried on
every glyph (field transform of GlyphPath) and never changed after shaping. -/
structure DAffine2 where
  xx : ℚ
  xy : ℚ
  yx : ℚ
  yy : ℚ
  tx : ℚ
  ty : ℚ
deriving DecidableEq, Repr

/-- Outline drawing commands stored by GlyphPath (enum PathCmd in lib.rs):
move, line, quadratic, cubic, close, with absolute screen space points. -/
inductive PathCmd where
  | M : DVec2 → PathCmd
  | L : DVec2 → PathCmd
  | Q : DVec2 → DVec2 → PathCmd
  | C : DVec2 → DVec2 → DVec2 → PathCmd
  | Z : PathCmd
deriving DecidableEq, Repr

/-- Decimal rendering of a rational, modelling the Rust f64 Display output. -/
def fmtQ (q : ℚ) : String :=
  if q.den = 1 then toString q.num else toString q.num ++ "/" ++ toString q.den

/-- One command rendered as SVG path text, exactly as the Rust format calls
build it: trailing blank, comma between curve points. -/
def renderCmd : PathCmd → String
  | .M p => "M" ++ fmtQ p.1 ++ " " ++ fmtQ p.2 ++ " "
  | .L p => "L" ++ fmtQ p.1 ++ " " ++ fmtQ p.2 ++ " "
  | .Q p1 p2 => "Q" ++ fmtQ p1.1 ++ " " ++ fmtQ p1.2 ++ "," ++ fmtQ p2.1 ++ " " ++ fmtQ p2.2 ++ " "
  | .C p1 p2 p3 =>
      "C" ++ fmtQ p1.1 ++ " " ++ fmtQ p1.2 ++ "," ++ fmtQ p2.1 ++ " " ++ fmtQ p2.2 ++ ","
        ++ fmtQ p3.1 ++ " " ++ fmtQ p3.2 ++ " "
  | .Z => "Z "

/-- The svg path text accumulated from a command list. -/
def renderCmds (cs : List PathCmd) : String := String.join (cs.map renderCmd)

/-- Shift one stored command by a translation offset: the body of the match
inside GlyphPath::translate. -/
def shiftCmd (offset : DVec2) : PathCmd → PathCmd
  | .M p => .M (p + offset)
  | .L p => .L (p + offset)
  | .Q p1 p2 => .Q (p1 + offset) (p2 + offset)
  | .C p1 p2 p3 => .C (p1 + offset) (p2 + offset) (p3 + offset)
  | .Z => .Z

/-- The points carried by one command. -/
def cmdPoints : PathCmd → List DVec2
  | .M p => [p]
  | .L p => [p]
  | .Q p1 p2 => [p1, p2]
  | .C p1 p2 p3 => [p1, p2, p3]
  | .Z => []

/-- struct GlyphPath: the emitted path text, the shaping transform, the
stored untranslated command list and the advance of the glyph. -/
structure GlyphPath where
  svg_path_string : String
  transform : DAffine2
  cmds : List PathCmd
  advance_x : ℚ
deriving DecidableEq, Repr

/-- GlyphPath::translate: clears the path text and re-emits every stored
command shifted by offset; cmds, transform and advance_x are untouched. -/
def GlyphPath.translate (g : GlyphPath) (offset : DVec2) : GlyphPath :=
  { g with svg_path_string := renderCmds (g.cmds.map (shiftCmd offset)) }

/-- struct ShapedFragment: the glyphs of one line break segment and their
total advance length. -/
structure ShapedFragment where
  glyphs : List GlyphPath
  length : ℚ
deriving DecidableEq, Repr

/-- ShapedFragment::new sums the advances of the glyphs. -/
def ShapedFragment.new (glyphs : List GlyphPath) : ShapedFragment :=
  ⟨glyphs, (glyphs.map GlyphPath.advance_x).sum⟩

/-- struct LineInfo: a fragment index range over the paragraph plus the
accumulated line length and a continuation flag. -/
structure LineInfo where
  first_fragment_index : Nat
  last_fragment_index : Nat
  line_length : ℚ
  has_next_line : Bool
deriving DecidableEq, Repr

/-- struct ParagraphInfo. -/
structure ParagraphInfo where
  shaped_fragments : List ShapedFragment
  lines : List LineInfo
  is_rtl : Bool
deriving DecidableEq, Repr

/-- The loop of ParagraphInfo::new. Arguments: the lengths of the fragments
still to place, the index of the next fragment, the running
current_line_length, the line currently being filled (the last element of
the Rust vector) and the already closed lines in reverse order. -/
def wrapFrom (maxLen : ℚ) : List ℚ → Nat → ℚ → LineInfo → List LineInfo → List LineInfo
  | [], _, _, cur, acc => (cur :: acc).reverse
  | len :: rest, i, cll, cur, acc =>
    if maxLen < cll + len then
      if 0 < i then
        wrapFrom maxLen rest (i + 1) len ⟨i, i, len, false⟩
          ({ cur with last_fragment_index := i, has_next_line := true } :: acc)
      else
        wrapFrom maxLen rest (i + 1) len { cur with line_length := len } acc
    else
      wrapFrom maxLen rest (i + 1) (cll + len)
        { cur with line_length := cur.line_length + len } acc

/-- ParagraphInfo::new: greedy wrap of the fragments into lines, starting
from one placeholder line at index 0. -/
def ParagraphInfo.new (shaped_fragments : List ShapedFragment) (max_line_length : ℚ)
    (is_rtl : Bool) : ParagraphInfo :=
  ⟨shaped_fragments,
    wrapFrom max_line_length (shaped_fragments.map ShapedFragment.length) 0 0
      ⟨0, 0, 0, false⟩ [],
    is_rtl⟩

/-- struct InputTransform: box origin, box size and the font size. -/
structure InputTransform where
  x : Int
  y : Int
  w : Int
  h : Int
  size : Nat
deriving DecidableEq, Repr

/-- Fixed padding used by perform_layout_on_paragraphs. -/
def PAD : ℚ := 12

/-- Effective end of the fragment range of a line, as the layout loop reads
it: the recorded upper bound for a continued line, the paragraph fragment
count for the final line. -/
def LineInfo.effEnd (n : Nat) (l : LineInfo) : Nat :=
  if l.has_next_line then l.last_fragment_index else n

/-- The per-line baseline anchor of the layout loop: box-right minus padding
for right-to-left, box-left plus padding otherwise. -/
def lineStartX (it : InputTransform) (is_rtl : Bool) : ℚ :=
  if is_rtl then ((it.x + it.w : Int) : ℚ) - PAD else ((it.x : Int) : ℚ) + PAD

/-- Inner fragment loop of perform_layout_on_paragraphs: places each
fragment at the running X (subtracting its length first when right-to-left),
translates its glyphs, collects their path strings, then advances the
running X. Returns the updated fragments, the emitted strings and the final
running X. -/
def layoutFragments (is_rtl : Bool) (hy : ℚ) : ℚ → List ShapedFragment →
    List ShapedFragment × List String × ℚ
  | bx, [] => ([], [], bx)
  | bx, f :: fs =>
    let newx := if is_rtl then bx - f.length else bx
    let f2 := { f with glyphs := f.glyphs.map (fun g => g.translate (newx, hy)) }
    let bx2 := if is_rtl then newx else newx + f.length
    let r := layoutFragments is_rtl hy bx2 fs
    (f2 :: r.1, f2.glyphs.map GlyphPath.svg_path_string ++ r.2.1, r.2.2)

/-- One line of the layout loop: lays out the slice of the paragraph
fragments given by the line range at the line anchor, and writes it back. -/
def layoutLine (it : InputTransform) (is_rtl : Bool) (hy : ℚ)
    (frags : List ShapedFragment) (line : LineInfo) : List ShapedFragment × List String :=
  let s := line.first_fragment_index
  let e := line.effEnd frags.length
  let r := layoutFragments is_rtl hy (lineStartX it is_rtl) ((frags.drop s).take (e - s))
  (frags.take s ++ r.1 ++ frags.drop e, r.2.1)

/-- Line loop of one paragraph, advancing the vertical cursor by one line
height after each line. -/
def layoutLines (it : InputTransform) (is_rtl : Bool) (line_height : ℚ) :
    ℚ → List ShapedFragment → List LineInfo → List ShapedFragment × List String × ℚ
  | hy, frags, [] => (frags, [], hy)
  | hy, frags, line :: rest =>
    let r := layoutLine it is_rtl hy frags line
    let r2 := layoutLines it is_rtl line_height (hy + line_height) r.1 rest
    (r2.1, r.2 ++ r2.2.1, r2.2.2)

/-- Paragraph loop: the vertical cursor runs on across paragraphs. -/
def layoutParagraphs (it : InputTransform) (line_height : ℚ) :
    ℚ → List ParagraphInfo → List ParagraphInfo × List String
  | _, [] => ([], [])
  | hy, p :: ps =>
    let r := layoutLines it p.is_rtl line_height hy p.shaped_fragments p.lines
    let rs := layoutParagraphs it line_height r.2.2 ps
    ({ p with shaped_fragments := r.1 } :: rs.1, r.2.1 ++ rs.2)

/-- AppState::perform_layout_on_paragraphs, cut at the shaping boundary: the
external shaping collaborator already turned each paragraph text into its
fragment list; everything after that (wrapping, baselines, translation,
output order) follows the source. Returns the flat path list together with
the final paragraph state. -/
def perform_layout_on_paragraphs (it : InputTransform)
    (paragraphs : List (List ShapedFragment × Bool)) : List String × List ParagraphInfo :=
  let line_height : ℚ := (5 / 4 : ℚ) * (it.size : ℚ)
  let max_line_length : ℚ := max (((it.w : Int) : ℚ) - 2 * PAD) 0
  let shaped := paragraphs.map (fun pr => ParagraphInfo.new pr.1 max_line_length pr.2)
  let r := layoutParagraphs it line_height (((it.y : Int) : ℚ) + PAD + line_height) shaped
  (r.2, r.1)

/-- Font ids are strings. -/
abbrev FontId := String

/-- The designated global fallback font id. -/
def GLOBAL_FALLBACK_FONT : FontId := "pt"

/-- The five fonts registered by AppState::new, as abstract tags (the binary
font data is external to the layout core). -/
inductive FontData where
  | ptSerif
  | seoul
  | roboto
  | robotoItalic
  | noto
deriving DecidableEq, Repr

/-- The font registry built by AppState::new, modelled as the association
list of its insertions (a HashMap with string keys and distinct insertions). -/
def AppState.newFonts : List (FontId × FontData) :=
  [("pt", .ptSerif), ("seoul", .seoul), ("roboto", .roboto),
   ("roboto-italic", .robotoItalic), ("noto", .noto)]

/-- The font fallback chain of AppState::resolve_input: try the paragraph
font, then the declared fallback; the argument of unwrap_or — the global
fallback looked up and unwrapped — is evaluated unconditionally, so a
missing global fallback is a panic (modelled as none) whatever the other
tiers hold. -/
def resolve_font {F : Type} (fonts : List (FontId × F)) (primary fb : FontId) : Option F :=
  match fonts.lookup GLOBAL_FALLBACK_FONT with
  | none => none
  | some g =>
    some (match fonts.lookup primary with
      | some f => f
      | none =>
        match fonts.lookup fb with
        | some f => f
        | none => g)

/-- struct Input: the document text, per-paragraph font ids and the fallback
font id (the alignment fields of the source are unused by layout). -/
structure Input (F : Type) where
  text : List Char
  paragraphs_fonts : List FontId
  fallback_font : FontId

/-- Display text of one bidi paragraph (lines 197..208 of lib.rs): a
non-final paragraph drops the trailing separator byte of its end-exclusive
range; the final paragraph drops it exactly when its slice ends in a
newline. -/
def display_str (text : List Char) (start stop : Nat) (isLast : Bool) : List Char :=
  if isLast then
    let initial_guess := (text.take stop).drop start
    if initial_guess.getLast? = some '\n' then (text.take (stop - 1)).drop start
    else initial_guess
  else (text.take (stop - 1)).drop start

/-- Font lookup for one paragraph (lines 211..227): the per-paragraph font
list is indexed directly — out of range is a panic, modelled as none — and
then the fallback chain runs. -/
def resolve_paragraph_font {F : Type} (fonts : List (FontId × F)) (inp : Input F)
    (i : Nat) : Option F :=
  match inp.paragraphs_fonts[i]? with
  | none => none
  | some fid => resolve_font fonts fid inp.fallback_font

/-- The paragraph loop of resolve_input: resolves every paragraph font and
builds the display text and direction of each bidi paragraph. -/
def resolveParas {F : Type} (fonts : List (FontId × F)) (inp : Input F) (n : Nat) :
    Nat → List ((Nat × Nat) × Bool) → Option (List (List Char × Bool))
  | _, [] => some []
  | i, pr :: rest =>
    match resolve_paragraph_font fonts inp i with
    | none => none
    | some _ =>
      match resolveParas fonts inp n (i + 1) rest with
      | none => none
      | some tail => some ((display_str inp.text pr.1.1 pr.1.2 (i == n - 1), pr.2) :: tail)

/-- AppState::resolve_input, with the two external collaborators as
parameters: bidi stands for the bidi paragraph analysis (byte range and
direction per paragraph) and shape for shape_static_text. Returns none
exactly where the Rust code panics: input index or per-paragraph font index
out of bounds, or global fallback font missing. -/
def resolve_input {F : Type} (shape : List Char → Bool → List ShapedFragment)
    (fonts : List (FontId × F)) (inputs : List (Input F))
    (bidi : List Char → List ((Nat × Nat) × Bool))
    (it : InputTransform) (input : Nat) : Option (List String) :=
  match inputs[input]? with
  | none => none
  | some inp =>
    let paras := bidi inp.text
    match resolveParas fonts inp paras.length 0 paras with
    | none => none
    | some ps =>
      some (perform_layout_on_paragraphs it (ps.map (fun pr => (shape pr.1 pr.2, pr.2)))).1

/-- The four hardcoded sample documents of AppState::new (lib.rs lines 145
to 174), with their texts, per-paragraph font ids and fallback fonts taken
verbatim from the source; the alignment fields of the source (all Normal)
are unused by layout and are not carried by the Input model. -/
def AppState.newInputs : List (Input FontData) :=
  [⟨("아무도 자의적인 체포, 구금 또는 추방을 당하지 않아야 합니다. 모든 사람은 자신의 권리와 의무, 그리고 자신에게 제기된 형사 혐의를 결정함에 있어 독립적이고 공정한 재판소에 의해 평등하게 공정하고 공개적인 심리를 받을 권리를 갖습니다. 아무도 자신의 사생활, 가족, 가정 또는 서신에 대한 자의적인 간섭이나 명예와 평판에 대한 공격을 받아서는 안 됩니다. 모든 사람은 그러한 간섭이나 공격으로부터 법의 보호를 받을 권리를 갖습니다.").toList,
    ["seoul"], "seoul"⟩,
   ⟨("איש לא יהיה נתון למעצר, מעצר שרירותי או גירוש. לכל אדם הזכות לשוויון מלא למשפט הוגן ופומבי בפני בית דין עצמאי ובלתי משוחד, לצורך הכרעה בזכויותיו וחובותיו ובכל אישום פלילי המופנה נגדו. איש לא יהיה נתון להתערבות שרירותית בפרטיותו, במשפחתו, בביתו או בהתכתבויותיו, ולא לפגיעות בכבודו או בשמו הטוב. לכל אדם הזכות להגנת החוק מפני התערבויות או פגיעות כאלה.").toList,
    ["noto"], "noto"⟩,
   ⟨("Nul ne sera soumis à une arrestation, une détention ou un exil arbitraires.\n\nToute personne a droit, en pleine égalité, à ce que sa cause soit entendue équitablement et publiquement par un tribunal indépendant et impartial, qui décidera de ses droits et obligations ainsi que du bien-fondé de toute accusation en matière pénale portée contre elle. Nul ne sera l'objet d'immixtions arbitraires dans sa vie privée, sa famille, son domicile ou sa correspondance, ni d'atteintes à son honneur et à sa réputation. Toute personne a droit à la protection de la loi contre de telles immixtions ou de telles atteintes.\nFin.\n\n").toList,
    ["pt", "pt", "pt", "pt", "pt", "pt"], "pt"⟩,
   ⟨("Nul ne sera soumis à une arrestation, une détention ou un exil arbitraires. \n איש לא יהיה נתון להתערבות שרירותית בפרטיותו, במשפחתו, בביתו או בהתכתבויותיו, ולא לפגיעות בכבודו או בשמו הטוב\nToute personne a droit à la protection de la loi contre de telles immixtions ou de telles atteintes.").toList,
    ["roboto-italic", "noto", "roboto"], "roboto"⟩]

/-- get_paths (lines 41..46): the exported entry point packs the box
geometry into an InputTransform and calls resolve_input on the process
state. -/
def get_paths {F : Type} (shape : List Char → Bool → List ShapedFragment)
    (fonts : List (FontId × F)) (inputs : List (Input F))
    (bidi : List Char → List ((Nat × Nat) × Bool))
    (x y w h : Int) (size : Nat) (input : Nat) : Option (List String) :=
  resolve_input shape fonts inputs bidi ⟨x, y, w, h, size⟩ input

theorem shiftCmd_zero (c : PathCmd) : shiftCmd (0, 0) c = c := by
  cases c <;> simp [shiftCmd, Prod.mk_zero_zero]

theorem cmdPoints_shiftCmd (V : DVec2) (c : PathCmd) :
    cmdPoints (shiftCmd V c) = (cmdPoints c).map (· + V) := by
  cases c <;> simp [shiftCmd, cmdPoints]

theorem flatMap_cmdPoints_shift (V : DVec2) (cs : List PathCmd) :
    (cs.map (shiftCmd V)).flatMap cmdPoints = (cs.flatMap cmdPoints).map (· + V) := by
  induction cs with
  | nil => rfl
  | cons c cs ih => simp [List.flatMap_cons, cmdPoints_shiftCmd, ih]

/-- Claim 10: GlyphPath::translate has absolute, last-write-wins semantics:
translating by a and then by b leaves the glyph in exactly the state of
translating by b alone, and repeating the same translation is idempotent,
because each call rebuilds the path text from the stored untranslated
command list. -/
theorem claim10_translate_absolute (g : GlyphPath) (a b : DVec2) :
    (g.translate a).translate b = g.translate b ∧
    (g.translate a).translate a = g.translate a :=
  ⟨rfl, rfl⟩

def g0 : GlyphPath :=
  ⟨renderCmds [PathCmd.M (0, 0)], ⟨1, 0, 0, 1, 0, 0⟩, [PathCmd.M (0, 0)], 10⟩

/-- Claim 4 counterexample: translate is absolute, so translating a pristine
one-command glyph by the vector one-zero and then by its negation emits the
command shifted by the negation — the path text reads M-1 0 where the
original read M0 0 — so the round trip does not restore the original
coordinates, and not by any floating point tolerance. -/
theorem claim4_counterexample :
    ((g0.translate (1, 0)).translate (-1, 0)).svg_path_string = "M-1 0 " ∧
    g0.svg_path_string = "M0 0 " ∧
    ((g0.translate (1, 0)).translate (-1, 0)).svg_path_string ≠ g0.svg_path_string := by
  have hc : List.map (shiftCmd (-1, 0)) [PathCmd.M (0, 0)] = [PathCmd.M (-1, 0)] := by
    simp [shiftCmd, Prod.mk_add_mk]
  refine ⟨?_, by decide, ?_⟩
  · show renderCmds (List.map (shiftCmd (-1, 0)) [PathCmd.M (0, 0)]) = "M-1 0 "
    rw [hc]
    decide
  · show renderCmds (List.map (shiftCmd (-1, 0)) [PathCmd.M (0, 0)]) ≠
      renderCmds [PathCmd.M (0, 0)]
    rw [hc]
    decide

/-- Claim 4 (amended): translate rewrites exactly the path text of the
glyph, re-rendering the stored commands under the new offset; for a
pristine glyph this shifts every emitted outline coordinate by exactly V
and leaves the advance, the stored command list and every fragment length
unchanged; and since translate has absolute semantics, translating by V and
then by the zero vector restores the original emitted coordinates, while
translating by V and then by minus V emits the stored commands shifted by
minus V. -/
theorem claim4_translate_geometry (g : GlyphPath) (V : DVec2)
    (hp : g.svg_path_string = renderCmds g.cmds) :
    g.translate V = { g with svg_path_string := renderCmds (g.cmds.map (shiftCmd V)) } ∧
    (g.translate V).svg_path_string = renderCmds (g.cmds.map (shiftCmd V)) ∧
    (g.cmds.map (shiftCmd V)).flatMap cmdPoints = (g.cmds.flatMap cmdPoints).map (· + V) ∧
    (g.translate V).advance_x = g.advance_x ∧
    (g.translate V).cmds = g.cmds ∧
    (∀ gs : List GlyphPath,
      (ShapedFragment.new (gs.map (fun h => h.translate V))).length =
        (ShapedFragment.new gs).length) ∧
    ((g.translate V).translate (0, 0)).svg_path_string = g.svg_path_string ∧
    ((g.translate V).translate (-V)).svg_path_string = renderCmds (g.cmds.map (shiftCmd (-V))) := by
  refine ⟨rfl, rfl, flatMap_cmdPoints_shift V g.cmds, rfl, rfl, ?_, ?_, rfl⟩
  · intro gs
    simp only [ShapedFragment.new, List.map_map]
    congr 1
  · show renderCmds (g.cmds.map (shiftCmd (0, 0))) = g.svg_path_string
    rw [hp]
    congr 1
    calc g.cmds.map (shiftCmd (0, 0)) = g.cmds.map id :=
          List.map_congr_left (fun c _ => shiftCmd_zero c)
      _ = g.cmds := List.map_id g.cmds

/-- Witness for claim 4: the amended theorem applied to a concrete pristine
glyph and the vector one-zero. -/
theorem claim4_witness :
    (g0.svg_path_string = renderCmds g0.cmds) ∧
    (g0.translate (1, 0)
        = { g0 with svg_path_string := renderCmds (g0.cmds.map (shiftCmd (1, 0))) } ∧
    (g0.translate (1, 0)).svg_path_string = renderCmds (g0.cmds.map (shiftCmd (1, 0))) ∧
    (g0.cmds.map (shiftCmd (1, 0))).flatMap cmdPoints =
      (g0.cmds.flatMap cmdPoints).map (· + (1, 0)) ∧
    (g0.translate (1, 0)).advance_x = g0.advance_x ∧
    (g0.translate (1, 0)).cmds = g0.cmds ∧
    (∀ gs : List GlyphPath,
      (ShapedFragment.new (gs.map (fun h => h.translate (1, 0)))).length =
        (ShapedFragment.new gs).length) ∧
    ((g0.translate (1, 0)).translate (0, 0)).svg_path_string = g0.svg_path_string ∧
    ((g0.translate (1, 0)).translate (-(1, 0))).svg_path_string =
      renderCmds (g0.cmds.map (shiftCmd (-(1, 0))))) :=
  ⟨rfl, claim4_translate_geometry g0 (1, 0) rfl⟩

/-- Claim 3: font resolution tries the paragraph font, the declared fallback
and the global fallback in that order and returns the first id present in
the registry; an id that is present resolves to its own stored font, the
resolved font is always one stored in the registry under one of the three
tried ids, and the registry built by AppState::new does contain the global
fallback font, so resolution never fails at layout time. -/
theorem claim3_font_resolution :
    (∀ (F : Type) (fonts : List (FontId × F)) (primary fb : FontId) (g : F),
      fonts.lookup GLOBAL_FALLBACK_FONT = some g →
      ((∀ f, fonts.lookup primary = some f → resolve_font fonts primary fb = some f) ∧
       (fonts.lookup primary = none → ∀ f, fonts.lookup fb = some f →
         resolve_font fonts primary fb = some f) ∧
       (fonts.lookup primary = none → fonts.lookup fb = none →
         resolve_font fonts primary fb = some g) ∧
       (∀ f, resolve_font fonts primary fb = some f →
         ∃ fid, (fid = primary ∨ fid = fb ∨ fid = GLOBAL_FALLBACK_FONT) ∧
           fonts.lookup fid = some f))) ∧
    AppState.newFonts.lookup GLOBAL_FALLBACK_FONT = some FontData.ptSerif := by
  constructor
  · intro F fonts primary fb g hg
    refine ⟨?_, ?_, ?_, ?_⟩
    · intro f hf
      simp [resolve_font, hg, hf]
    · intro hp f hf
      simp [resolve_font, hg, hp, hf]
    · intro hp hf
      simp [resolve_font, hg, hp, hf]
    · intro f hf
      unfold resolve_font at hf
      rw [hg] at hf
      rcases h1 : fonts.lookup primary with _ | f1
      · rcases h2 : fonts.lookup fb with _ | f2
        · rw [h1, h2] at hf
          simp at hf
          exact ⟨GLOBAL_FALLBACK_FONT, Or.inr (Or.inr rfl), by rw [hg, hf]⟩
        · rw [h1, h2] at hf
          simp at hf
          exact ⟨fb, Or.inr (Or.inl rfl), by rw [h2, hf]⟩
      · rw [h1] at hf
        simp at hf
        exact ⟨primary, Or.inl rfl, by rw [h1, hf]⟩
  · rfl

theorem drop_take_dropLast {α : Type} (text : List α) (start stop : Nat)
    (h1 : start < stop) (h2 : stop ≤ text.length) :
    (text.take (stop - 1)).drop start = ((text.take stop).drop start).dropLast := by
  apply List.ext_getElem
  · simp only [List.length_drop, List.length_take, List.length_dropLast]
    omega
  · intro n hn1 hn2
    simp only [List.getElem_drop, List.getElem_take, List.getElem_dropLast]

/-- Claim 8: the display text of a non-final bidi paragraph is its
end-exclusive range with the trailing separator character removed, and the
final paragraph receives the same trimming exactly when its slice ends with
a newline and is otherwise taken whole. -/
theorem claim8_display_trim (text : List Char) (start stop : Nat)
    (h1 : start < stop) (h2 : stop ≤ text.length) :
    display_str text start stop false = ((text.take stop).drop start).dropLast ∧
    display_str text start stop true =
      (if ((text.take stop).drop start).getLast? = some '\n'
        then ((text.take stop).drop start).dropLast
        else (text.take stop).drop start) := by
  constructor
  · exact drop_take_dropLast text start stop h1 h2
  · show (if ((text.take stop).drop start).getLast? = some '\n'
        then (text.take (stop - 1)).drop start
        else (text.take stop).drop start) = _
    by_cases h : ((text.take stop).drop start).getLast? = some '\n'
    · rw [if_pos h, if_pos h]
      exact drop_take_dropLast text start stop h1 h2
    · rw [if_neg h, if_neg h]

/-- Witness for claim 8 at a concrete six character document. -/
theorem claim8_witness :
    (0 < 3 ∧ 3 ≤ ("ab\ncd\n".toList).length) ∧
    (display_str "ab\ncd\n".toList 0 3 false =
      ((("ab\ncd\n".toList).take 3).drop 0).dropLast ∧
     display_str "ab\ncd\n".toList 0 3 true =
      (if ((("ab\ncd\n".toList).take 3).drop 0).getLast? = some '\n'
        then ((("ab\ncd\n".toList).take 3).drop 0).dropLast
        else (("ab\ncd\n".toList).take 3).drop 0)) :=
  ⟨⟨by decide, by decide⟩, claim8_display_trim "ab\ncd\n".toList 0 3 (by decide) (by decide)⟩

theorem layoutFragments_rtl_drift (hy : ℚ) : ∀ (fs : List ShapedFragment) (bx : ℚ),
    bx - (layoutFragments true hy bx fs).2.2 = (fs.map ShapedFragment.length).sum := by
  intro fs
  induction fs with
  | nil => intro bx; simp [layoutFragments]
  | cons f fs ih =>
    intro bx
    have := ih (bx - f.length)
    simp only [layoutFragments, List.map_cons, List.sum_cons, if_true]
    linarith

theorem layoutFragments_ltr_advance (hy : ℚ) : ∀ (fs : List ShapedFragment) (bx : ℚ),
    (layoutFragments false hy bx fs).2.2 = bx + (fs.map ShapedFragment.length).sum := by
  intro fs
  induction fs with
  | nil => intro bx; simp [layoutFragments]
  | cons f fs ih =>
    intro bx
    have := ih (bx + f.length)
    simp only [layoutFragments, List.map_cons, List.sum_cons]
    simp only [if_neg Bool.false_ne_true]
    linarith

/-- Claim 6: right-to-left lines anchor the running X at box-right minus the
fixed padding and left-to-right lines at box-left plus the padding; a
right-to-left fragment is placed by first subtracting its own length from
the running X before its glyphs are drawn; and after a line is laid out the
starting X minus the final running X equals the sum of the placed fragment
lengths, the left-to-right direction dually advancing by each length. -/
theorem claim6_anchoring (it : InputTransform) (hy bx : ℚ) (f : ShapedFragment)
    (fs : List ShapedFragment) :
    lineStartX it true = ((it.x : ℚ) + (it.w : ℚ)) - PAD ∧
    lineStartX it false = (it.x : ℚ) + PAD ∧
    (layoutFragments true hy bx (f :: fs)).2.1 =
      f.glyphs.map (fun g => (g.translate (bx - f.length, hy)).svg_path_string) ++
        (layoutFragments true hy (bx - f.length) fs).2.1 ∧
    bx - (layoutFragments true hy bx fs).2.2 = (fs.map ShapedFragment.length).sum ∧
    (layoutFragments false hy bx fs).2.2 = bx + (fs.map ShapedFragment.length).sum := by
  refine ⟨?_, ?_, ?_, layoutFragments_rtl_drift hy fs bx, layoutFragments_ltr_advance hy fs bx⟩
  · simp [lineStartX]
  · simp [lineStartX]
  · simp only [layoutFragments, if_true, List.map_map]
    rfl
/-- Sum of the fragment lengths with indices in the range from a to b
exclusive. -/
def sumRange (full : List ℚ) (a b : Nat) : ℚ := ((full.take b).drop a).sum

theorem sumRange_self (full : List ℚ) (a : Nat) : sumRange full a a = 0 := by
  have h : (full.take a).drop a = [] := by
    rw [List.drop_eq_nil_iff]
    simp [List.length_take]
  simp [sumRange, h]

theorem sumRange_succ (full : List ℚ) (a i : Nat) (ha : a ≤ i) (hi : i < full.length) :
    sumRange full a (i + 1) = sumRange full a i + full.getD i 0 := by
  unfold sumRange
  rw [List.take_succ]
  rw [List.drop_append_of_le_length (by simp [List.length_take]; omega)]
  rw [List.sum_append]
  congr 1
  rw [List.getElem?_eq_getElem hi]
  simp [List.getD_eq_getElem?_getD, List.getElem?_eq_getElem hi]

/-- Every fragment of the line after the first one was kept because the
running length stayed within the maximum. -/
def lineOk (full : List ℚ) (maxLen : ℚ) (s e : Nat) : Prop :=
  ∀ j, s < j → j < e → sumRange full s (j + 1) ≤ maxLen

/-- Shape of the finished line list of one paragraph relative to a start
index: every line starts where the previous one ended, continued lines close
strictly ahead of their start and before the fragment count, record the sum
of their range as line_length, close only because the next fragment would
overflow, and the final line runs to the fragment count. -/
def linesGood (full : List ℚ) (maxLen : ℚ) : Nat → List LineInfo → Prop
  | _, [] => False
  | s, [l] =>
      l.first_fragment_index = s ∧ l.has_next_line = false ∧
      (0 < full.length → s < full.length) ∧ (full.length = 0 → s = 0) ∧
      l.line_length = sumRange full s full.length ∧
      lineOk full maxLen s full.length
  | s, l :: l2 :: rest =>
      l.first_fragment_index = s ∧ l.has_next_line = true ∧
      s < l.last_fragment_index ∧ l.last_fragment_index < full.length ∧
      l.line_length = sumRange full s l.last_fragment_index ∧
      lineOk full maxLen s l.last_fragment_index ∧
      maxLen < sumRange full s l.last_fragment_index + full.getD l.last_fragment_index 0 ∧
      linesGood full maxLen l.last_fragment_index (l2 :: rest)

theorem wrapFrom_good (maxLen : ℚ) (full : List ℚ) :
    ∀ (rest : List ℚ) (i : Nat) (cur : LineInfo) (acc : List LineInfo),
      rest = full.drop i →
      i ≤ full.length →
      cur.has_next_line = false →
      cur.first_fragment_index ≤ i →
      (0 < i → cur.first_fragment_index < i) →
      (i = 0 → cur.first_fragment_index = 0) →
      cur.line_length = sumRange full cur.first_fragment_index i →
      lineOk full maxLen cur.first_fragment_index i →
      (∀ tail, tail ≠ [] →
        linesGood full maxLen cur.first_fragment_index tail →
        linesGood full maxLen 0 (acc.reverse ++ tail)) →
      linesGood full maxLen 0 (wrapFrom maxLen rest i cur.line_length cur acc) := by
  intro rest
  induction rest with
  | nil =>
    intro i cur acc hrest hi hnext hle hlt h0 hll hok hcont
    have hlen : full.length ≤ i := List.drop_eq_nil_iff.mp hrest.symm
    have hieq : i = full.length := le_antisymm hi hlen
    have hres : wrapFrom maxLen [] i cur.line_length cur acc = acc.reverse ++ [cur] := by
      simp [wrapFrom]
    rw [hres]
    apply hcont [cur] (by simp)
    refine ⟨rfl, hnext, ?_, ?_, ?_, ?_⟩
    · intro hpos
      exact hieq ▸ hlt (hieq ▸ hpos)
    · intro hz
      exact h0 (by omega)
    · rw [← hieq]; exact hll
    · rw [← hieq]; exact hok
  | cons len rest2 ih =>
    intro i cur acc hrest hi hnext hle hlt h0 hll hok hcont
    have hfull_i : full[i]? = some len := by
      have h1 : (full.drop i)[0]? = some len := by
        rw [← hrest]
        simp
      rwa [List.getElem?_drop, Nat.add_zero] at h1
    have hilt : i < full.length := by
      by_contra hcontr
      rw [List.getElem?_eq_none (by omega)] at hfull_i
      cases hfull_i
    have hgetD : full.getD i 0 = len := by
      simp [List.getD_eq_getElem?_getD, hfull_i]
    have hrest2 : rest2 = full.drop (i + 1) := by
      have h2 : (full.drop i).drop 1 = full.drop (i + 1) := by rw [List.drop_drop]
      rw [← h2, ← hrest]
      rfl
    simp only [wrapFrom]
    by_cases hov : maxLen < cur.line_length + len
    · rw [if_pos hov]
      by_cases hipos : 0 < i
      · rw [if_pos hipos]
        apply ih (i + 1) ⟨i, i, len, false⟩
          ({ cur with last_fragment_index := i, has_next_line := true } :: acc) hrest2
        · omega
        · rfl
        · show i ≤ i + 1
          omega
        · intro h
          show i < i + 1
          omega
        · intro h
          omega
        · show len = sumRange full i (i + 1)
          rw [sumRange_succ full i i le_rfl hilt, sumRange_self, hgetD, zero_add]
        · intro j hj1 hj2
          change i < j at hj1
          omega
        · intro tail hne hgood
          have hsplit :
              (({ cur with last_fragment_index := i, has_next_line := true } :: acc).reverse
                ++ tail)
              = acc.reverse
                ++ ({ cur with last_fragment_index := i, has_next_line := true } :: tail) := by
            simp [List.reverse_cons, List.append_assoc]
          rw [hsplit]
          apply hcont _ (by simp)
          obtain ⟨t, ts, rfl⟩ : ∃ t ts, tail = t :: ts := by
            cases tail with
            | nil => exact absurd rfl hne
            | cons t ts => exact ⟨t, ts, rfl⟩
          exact ⟨rfl, rfl, hlt hipos, hilt, hll, hok, by rw [← hll, hgetD]; exact hov, hgood⟩
      · rw [if_neg hipos]
        have hi0 : i = 0 := by omega
        subst hi0
        have hfirst0 : cur.first_fragment_index = 0 := h0 rfl
        apply ih 1 { cur with line_length := len } acc hrest2
        · omega
        · exact hnext
        · show cur.first_fragment_index ≤ 1
          omega
        · intro h
          show cur.first_fragment_index < 1
          omega
        · intro h
          omega
        · show len = sumRange full cur.first_fragment_index 1
          rw [hfirst0, sumRange_succ full 0 0 le_rfl hilt, sumRange_self, hgetD, zero_add]
        · intro j hj1 hj2
          change cur.first_fragment_index < j at hj1
          omega
        · intro tail hne hgood
          exact hcont tail hne hgood
    · rw [if_neg hov]
      apply ih (i + 1) { cur with line_length := cur.line_length + len } acc hrest2
      · omega
      · exact hnext
      · show cur.first_fragment_index ≤ i + 1
        omega
      · intro h
        show cur.first_fragment_index < i + 1
        omega
      · intro h
        omega
      · show cur.line_length + len = sumRange full cur.first_fragment_index (i + 1)
        rw [sumRange_succ full cur.first_fragment_index i hle hilt, ← hll, hgetD]
      · intro j hj1 hj2
        change cur.first_fragment_index < j at hj1
        change j < i + 1 at hj2
        rcases Nat.lt_or_ge j i with hj | hj
        · exact hok j hj1 hj
        · have hji : j = i := by omega
          subst hji
          rw [sumRange_succ full cur.first_fragment_index j hle hilt, ← hll, hgetD]
          exact not_lt.mp hov
      · intro tail hne hgood
        exact hcont tail hne hgood

theorem ParagraphInfo.new_linesGood (frs : List ShapedFragment) (maxLen : ℚ) (rtl : Bool) :
    linesGood (frs.map ShapedFragment.length) maxLen 0
      (ParagraphInfo.new frs maxLen rtl).lines := by
  have h := wrapFrom_good maxLen (frs.map ShapedFragment.length)
    (frs.map ShapedFragment.length) 0 ⟨0, 0, 0, false⟩ [] rfl (by simp) rfl le_rfl
    (by omega) (fun _ => rfl) (by rw [sumRange_self]) (fun j hj1 hj2 => by omega)
    (fun tail hne hgood => by simpa using hgood)
  exact h
/-- The fragment index ranges of the lines, as the layout loop reads them:
the recorded bound for continued lines, the fragment count for final ones. -/
def effRanges (n : Nat) (lines : List LineInfo) : List (Nat × Nat) :=
  lines.map (fun l => (l.first_fragment_index, l.effEnd n))

theorem linesGood_head_first (full : List ℚ) (maxLen : ℚ) (s : Nat) (l : LineInfo)
    (rest : List LineInfo) (h : linesGood full maxLen s (l :: rest)) :
    l.first_fragment_index = s := by
  cases rest with
  | nil => exact h.1
  | cons a b => exact h.1

theorem linesGood_flatten (full : List ℚ) (maxLen : ℚ) :
    ∀ (ls : List LineInfo) (s : Nat), linesGood full maxLen s ls →
      (effRanges full.length ls).flatMap (fun r => List.range' r.1 (r.2 - r.1)) =
        List.range' s (full.length - s) := by
  intro ls
  induction ls with
  | nil => intro s h; exact h.elim
  | cons l ls2 ih =>
    intro s h
    cases ls2 with
    | nil =>
      obtain ⟨h1, h2, h3, h4, h5, h6⟩ := h
      subst h1
      simp [effRanges, LineInfo.effEnd, h2]
    | cons l2 rest =>
      obtain ⟨h1, h2, h3, h4, h5, h6, h7, h8⟩ := h
      subst h1
      have ihr := ih l.last_fragment_index h8
      simp only [effRanges, List.map_cons, List.flatMap_cons] at ihr ⊢
      rw [ihr]
      simp only [LineInfo.effEnd, h2, if_pos]
      have harange := List.range'_append l.first_fragment_index
        (l.last_fragment_index - l.first_fragment_index)
        (full.length - l.last_fragment_index) 1
      have e1 : l.first_fragment_index + 1 * (l.last_fragment_index - l.first_fragment_index)
          = l.last_fragment_index := by omega
      have e2 : (full.length - l.last_fragment_index)
            + (l.last_fragment_index - l.first_fragment_index)
          = full.length - l.first_fragment_index := by omega
      rw [e1, e2] at harange
      simpa using harange

theorem linesGood_chain (full : List ℚ) (maxLen : ℚ) :
    ∀ (ls : List LineInfo) (s : Nat), linesGood full maxLen s ls →
      List.Chain' (fun a b : LineInfo =>
        b.first_fragment_index = a.effEnd full.length ∧
        a.first_fragment_index < b.first_fragment_index ∧
        maxLen < sumRange full a.first_fragment_index (a.effEnd full.length) +
          full.getD (a.effEnd full.length) 0) ls := by
  intro ls
  induction ls with
  | nil => intro s h; exact h.elim
  | cons l ls2 ih =>
    intro s h
    cases ls2 with
    | nil => simp
    | cons l2 rest =>
      obtain ⟨h1, h2, h3, h4, h5, h6, h7, h8⟩ := h
      rw [List.chain'_cons]
      have hfirst2 := linesGood_head_first full maxLen l.last_fragment_index l2 rest h8
      have heff : l.effEnd full.length = l.last_fragment_index := by
        simp [LineInfo.effEnd, h2]
      refine ⟨⟨by rw [heff, hfirst2], ?_, ?_⟩, ih l.last_fragment_index h8⟩
      · rw [hfirst2, h1]
        exact h3
      · rw [heff, h1]
        exact h7

theorem linesGood_mem (full : List ℚ) (maxLen : ℚ) :
    ∀ (ls : List LineInfo) (s : Nat), linesGood full maxLen s ls →
      ∀ l ∈ ls,
        l.first_fragment_index ≤ l.effEnd full.length ∧
        l.effEnd full.length ≤ full.length ∧
        l.line_length = sumRange full l.first_fragment_index (l.effEnd full.length) ∧
        lineOk full maxLen l.first_fragment_index (l.effEnd full.length) ∧
        (0 < full.length → l.first_fragment_index < l.effEnd full.length) := by
  intro ls
  induction ls with
  | nil => intro s h; exact h.elim
  | cons l ls2 ih =>
    intro s h m hm
    cases ls2 with
    | nil =>
      obtain ⟨h1, h2, h3, h4, h5, h6⟩ := h
      rcases List.mem_singleton.mp hm with rfl
      have heff : m.effEnd full.length = full.length := by
        simp [LineInfo.effEnd, h2]
      rw [heff, h1]
      exact ⟨by omega, le_rfl, h1 ▸ h5, h1 ▸ h6, fun hpos => h3 hpos⟩
    | cons l2 rest =>
      obtain ⟨h1, h2, h3, h4, h5, h6, h7, h8⟩ := h
      rcases List.mem_cons.mp hm with rfl | hm2
      · have heff : m.effEnd full.length = m.last_fragment_index := by
          simp [LineInfo.effEnd, h2]
        rw [heff, h1]
        exact ⟨by omega, by omega, h1 ▸ h5, h1 ▸ h6, fun _ => h1 ▸ h3⟩
      · exact ih l.last_fragment_index h8 m hm2

theorem linesGood_ne_nil (full : List ℚ) (maxLen : ℚ) (s : Nat) (ls : List LineInfo)
    (h : linesGood full maxLen s ls) : ls ≠ [] := by
  cases ls with
  | nil => exact h.elim
  | cons a b => exact List.cons_ne_nil a b

/-- Claim 1: for every paragraph the effective fragment index ranges of the
wrapped lines — a line with no following line ending at the paragraph
fragment count — are strictly increasing and adjacent, and their
concatenation is exactly the index range from zero to the fragment count,
with no fragment dropped or duplicated; a paragraph with zero fragments
yields the single placeholder line covering the empty range. -/
theorem claim1_line_ranges_partition (frs : List ShapedFragment) (maxLen : ℚ) (rtl : Bool) :
    effRanges frs.length (ParagraphInfo.new frs maxLen rtl).lines ≠ [] ∧
    List.Chain' (fun a b : Nat × Nat => a.2 = b.1)
      (effRanges frs.length (ParagraphInfo.new frs maxLen rtl).lines) ∧
    List.Chain' (fun a b : Nat × Nat => a.1 < b.1)
      (effRanges frs.length (ParagraphInfo.new frs maxLen rtl).lines) ∧
    (∀ r ∈ effRanges frs.length (ParagraphInfo.new frs maxLen rtl).lines, r.1 ≤ r.2) ∧
    (effRanges frs.length (ParagraphInfo.new frs maxLen rtl).lines).flatMap
      (fun r => List.range' r.1 (r.2 - r.1)) = List.range frs.length ∧
    (frs = [] → effRanges frs.length (ParagraphInfo.new frs maxLen rtl).lines = [(0, 0)]) := by
  have hdeg : frs = [] → effRanges frs.length (ParagraphInfo.new frs maxLen rtl).lines
      = [(0, 0)] := by
    intro hnil
    subst hnil
    rfl
  have hg := ParagraphInfo.new_linesGood frs maxLen rtl
  have hlen : frs.length = (frs.map ShapedFragment.length).length := (List.length_map _ _).symm
  rw [hlen]
  refine ⟨?_, ?_, ?_, ?_, ?_, by rw [← hlen]; exact hdeg⟩
  · intro hc
    have hne := linesGood_ne_nil _ maxLen 0 _ hg
    simp only [effRanges, List.map_eq_nil_iff] at hc
    exact hne hc
  · rw [effRanges, List.chain'_map]
    exact (linesGood_chain _ maxLen _ 0 hg).imp (fun a b hab => hab.1.symm)
  · rw [effRanges, List.chain'_map]
    exact (linesGood_chain _ maxLen _ 0 hg).imp (fun a b hab => hab.2.1)
  · intro r hr
    rcases List.mem_map.mp hr with ⟨l, hl, rfl⟩
    exact (linesGood_mem _ maxLen _ 0 hg l hl).1
  · rw [linesGood_flatten _ maxLen _ 0 hg, List.range_eq_range', Nat.sub_zero]

/-- Claim 2: the wrap is greedy — a single fragment paragraph always yields
exactly one line holding that fragment even when it alone exceeds the
maximum, each recorded line length is the sum of the fragment lengths of the
line, every fragment after the first of its line was kept because the
running sum stayed at or below the maximum, a line is closed exactly when
the next fragment would push the running sum over the maximum and the new
line opens at that fragment, no line is empty, and every line holding two
or more fragments has total length at most the maximum. -/
theorem claim2_wrap_greedy (frs : List ShapedFragment) (maxLen : ℚ) (rtl : Bool) :
    (∀ f : ShapedFragment,
      (ParagraphInfo.new [f] maxLen rtl).lines = [⟨0, 0, f.length, false⟩]) ∧
    (∀ l ∈ (ParagraphInfo.new frs maxLen rtl).lines,
      l.line_length = sumRange (frs.map ShapedFragment.length) l.first_fragment_index
        (l.effEnd frs.length)) ∧
    (∀ l ∈ (ParagraphInfo.new frs maxLen rtl).lines, ∀ j,
      l.first_fragment_index < j → j < l.effEnd frs.length →
      sumRange (frs.map ShapedFragment.length) l.first_fragment_index (j + 1) ≤ maxLen) ∧
    List.Chain' (fun a b : LineInfo =>
      b.first_fragment_index = a.effEnd frs.length ∧
      maxLen < sumRange (frs.map ShapedFragment.length) a.first_fragment_index
          (a.effEnd frs.length) +
        (frs.map ShapedFragment.length).getD (a.effEnd frs.length) 0)
      (ParagraphInfo.new frs maxLen rtl).lines ∧
    (∀ l ∈ (ParagraphInfo.new frs maxLen rtl).lines, 0 < frs.length →
      l.first_fragment_index < l.effEnd frs.length) ∧
    (∀ l ∈ (ParagraphInfo.new frs maxLen rtl).lines,
      l.first_fragment_index + 2 ≤ l.effEnd frs.length →
      sumRange (frs.map ShapedFragment.length) l.first_fragment_index
        (l.effEnd frs.length) ≤ maxLen) := by
  have hg := ParagraphInfo.new_linesGood frs maxLen rtl
  have hlen : frs.length = (frs.map ShapedFragment.length).length := (List.length_map _ _).symm
  rw [hlen]
  refine ⟨?_, ?_, ?_, ?_, ?_, ?_⟩
  · intro f
    simp only [ParagraphInfo.new, List.map_cons, List.map_nil]
    by_cases hov : maxLen < 0 + f.length
    · simp [wrapFrom, hov]
    · simp [wrapFrom, hov]
  · intro l hl
    exact (linesGood_mem _ maxLen _ 0 hg l hl).2.2.1
  · intro l hl
    exact (linesGood_mem _ maxLen _ 0 hg l hl).2.2.2.1
  · exact (linesGood_chain _ maxLen _ 0 hg).imp (fun a b hab => ⟨hab.1, hab.2.2⟩)
  · intro l hl
    exact (linesGood_mem _ maxLen _ 0 hg l hl).2.2.2.2
  · intro l hl h2
    have hok := (linesGood_mem _ maxLen _ 0 hg l hl).2.2.2.1
    have hstep := hok (l.effEnd (frs.map ShapedFragment.length).length - 1)
      (by omega) (by omega)
    have heq : l.effEnd (frs.map ShapedFragment.length).length - 1 + 1
        = l.effEnd (frs.map ShapedFragment.length).length := by omega
    rw [heq] at hstep
    exact hstep

/-- Frame relation on glyphs: everything except the emitted path text
agrees. -/
def glyphFrame (g g2 : GlyphPath) : Prop :=
  g2.cmds = g.cmds ∧ g2.transform = g.transform ∧ g2.advance_x = g.advance_x

/-- Frame relation on fragments: length and glyph geometry agree. -/
def fragFrame (f f2 : ShapedFragment) : Prop :=
  f2.length = f.length ∧ List.Forall₂ glyphFrame f.glyphs f2.glyphs

theorem glyphFrame_self (g : GlyphPath) : glyphFrame g g := ⟨rfl, rfl, rfl⟩

theorem glyphFrame_comp {a b c : GlyphPath} (h1 : glyphFrame a b) (h2 : glyphFrame b c) :
    glyphFrame a c :=
  ⟨h2.1.trans h1.1, h2.2.1.trans h1.2.1, h2.2.2.trans h1.2.2⟩

theorem forall₂_glyphFrame_self (gs : List GlyphPath) : List.Forall₂ glyphFrame gs gs := by
  induction gs with
  | nil => exact List.Forall₂.nil
  | cons g gs ih => exact List.Forall₂.cons (glyphFrame_self g) ih

theorem forall₂_glyphFrame_trans : ∀ {l1 l2 l3 : List GlyphPath},
    List.Forall₂ glyphFrame l1 l2 → List.Forall₂ glyphFrame l2 l3 →
    List.Forall₂ glyphFrame l1 l3 := by
  intro l1 l2 l3 h1
  induction h1 generalizing l3 with
  | nil => intro h2; cases h2; exact .nil
  | cons hab hrest ih =>
    intro h2
    cases h2 with
    | cons hbc hrest2 => exact .cons (glyphFrame_comp hab hbc) (ih hrest2)

theorem fragFrame_self (f : ShapedFragment) : fragFrame f f :=
  ⟨rfl, forall₂_glyphFrame_self f.glyphs⟩

theorem fragFrame_comp {a b c : ShapedFragment} (h1 : fragFrame a b) (h2 : fragFrame b c) :
    fragFrame a c :=
  ⟨h2.1.trans h1.1, forall₂_glyphFrame_trans h1.2 h2.2⟩

theorem forall₂_fragFrame_self (fs : List ShapedFragment) : List.Forall₂ fragFrame fs fs := by
  induction fs with
  | nil => exact List.Forall₂.nil
  | cons f fs ih => exact List.Forall₂.cons (fragFrame_self f) ih

theorem forall₂_fragFrame_trans : ∀ {l1 l2 l3 : List ShapedFragment},
    List.Forall₂ fragFrame l1 l2 → List.Forall₂ fragFrame l2 l3 →
    List.Forall₂ fragFrame l1 l3 := by
  intro l1 l2 l3 h1
  induction h1 generalizing l3 with
  | nil => intro h2; cases h2; exact .nil
  | cons hab hrest ih =>
    intro h2
    cases h2 with
    | cons hbc hrest2 => exact .cons (fragFrame_comp hab hbc) (ih hrest2)

theorem forall₂_fragFrame_append : ∀ {a b c d : List ShapedFragment},
    List.Forall₂ fragFrame a b → List.Forall₂ fragFrame c d →
    List.Forall₂ fragFrame (a ++ c) (b ++ d) := by
  intro a b c d h1 h2
  induction h1 with
  | nil => exact h2
  | cons hab hrest ih => exact .cons hab ih

theorem forall₂_glyphFrame_translate (off : DVec2) (gs : List GlyphPath) :
    List.Forall₂ glyphFrame gs (gs.map (fun g => g.translate off)) := by
  induction gs with
  | nil => exact .nil
  | cons g gs ih => exact .cons ⟨rfl, rfl, rfl⟩ ih

theorem layoutFragments_fragFrame (is_rtl : Bool) (hy : ℚ) :
    ∀ (fs : List ShapedFragment) (bx : ℚ),
      List.Forall₂ fragFrame fs (layoutFragments is_rtl hy bx fs).1 := by
  intro fs
  induction fs with
  | nil => intro bx; exact .nil
  | cons f fs ih =>
    intro bx
    exact List.Forall₂.cons ⟨rfl, forall₂_glyphFrame_translate _ f.glyphs⟩ (ih _)

theorem slice_decomp {α : Type} (l : List α) (s e : Nat) (hse : s ≤ e) :
    l = l.take s ++ ((l.drop s).take (e - s) ++ l.drop e) := by
  have h1 : (l.drop s).drop (e - s) = l.drop e := by
    rw [List.drop_drop]
    congr 1
    omega
  conv_lhs => rw [← List.take_append_drop s l]
  congr 1
  rw [← h1]
  exact (List.take_append_drop (e - s) (l.drop s)).symm

theorem layoutLine_fragFrame (it : InputTransform) (is_rtl : Bool) (hy : ℚ)
    (frags : List ShapedFragment) (line : LineInfo)
    (hse : line.first_fragment_index ≤ line.effEnd frags.length) :
    List.Forall₂ fragFrame frags (layoutLine it is_rtl hy frags line).1 := by
  have hdec := slice_decomp frags line.first_fragment_index (line.effEnd frags.length) hse
  have hmain : List.Forall₂ fragFrame
      (frags.take line.first_fragment_index ++
        ((frags.drop line.first_fragment_index).take
            (line.effEnd frags.length - line.first_fragment_index) ++
          frags.drop (line.effEnd frags.length)))
      (frags.take line.first_fragment_index ++
        ((layoutFragments is_rtl hy (lineStartX it is_rtl)
            ((frags.drop line.first_fragment_index).take
              (line.effEnd frags.length - line.first_fragment_index))).1 ++
          frags.drop (line.effEnd frags.length))) :=
    forall₂_fragFrame_append (forall₂_fragFrame_self _)
      (forall₂_fragFrame_append (layoutFragments_fragFrame is_rtl hy _ _)
        (forall₂_fragFrame_self _))
  rw [← hdec] at hmain
  show List.Forall₂ fragFrame frags
    (frags.take line.first_fragment_index ++
      (layoutFragments is_rtl hy (lineStartX it is_rtl)
        ((frags.drop line.first_fragment_index).take
          (line.effEnd frags.length - line.first_fragment_index))).1 ++
      frags.drop (line.effEnd frags.length))
  rw [List.append_assoc]
  exact hmain

theorem layoutLines_fragFrame (it : InputTransform) (is_rtl : Bool) (lh : ℚ) :
    ∀ (lines : List LineInfo) (hy : ℚ) (frags : List ShapedFragment),
      (∀ l ∈ lines, l.first_fragment_index ≤ l.effEnd frags.length) →
      List.Forall₂ fragFrame frags (layoutLines it is_rtl lh hy frags lines).1 := by
  intro lines
  induction lines with
  | nil => intro hy frags hb; exact forall₂_fragFrame_self frags
  | cons line rest ih =>
    intro hy frags hb
    have h1 := layoutLine_fragFrame it is_rtl hy frags line (hb line (List.mem_cons_self _ _))
    have hlen : frags.length = (layoutLine it is_rtl hy frags line).1.length :=
      List.Forall₂.length_eq h1
    have h2 := ih (hy + lh) (layoutLine it is_rtl hy frags line).1
      (by rw [← hlen]; exact fun l hl => hb l (List.mem_cons_of_mem _ hl))
    exact forall₂_fragFrame_trans h1 h2
theorem layoutParagraphs_fragFrame (it : InputTransform) (lh : ℚ) :
    ∀ (ps : List ParagraphInfo) (hy : ℚ),
      (∀ p ∈ ps, ∀ l ∈ p.lines,
        l.first_fragment_index ≤ l.effEnd p.shaped_fragments.length) →
      List.Forall₂ (fun p p2 : ParagraphInfo =>
        p2.is_rtl = p.is_rtl ∧ p2.lines = p.lines ∧
        List.Forall₂ fragFrame p.shaped_fragments p2.shaped_fragments)
        ps (layoutParagraphs it lh hy ps).1 := by
  intro ps
  induction ps with
  | nil => intro hy hb; exact .nil
  | cons p rest ih =>
    intro hy hb
    refine List.Forall₂.cons ⟨rfl, rfl, ?_⟩
      (ih _ (fun q hq => hb q (List.mem_cons_of_mem _ hq)))
    exact layoutLines_fragFrame it p.is_rtl lh p.lines hy p.shaped_fragments
      (fun l hl => hb p (List.mem_cons_self _ _) l hl)

/-- Claim 5: once shaped, glyph geometry is only re-translated.
GlyphPath::translate rewrites only the emitted path text, and the whole
layout call leaves every paragraph with the same direction flag and with
fragments of unchanged length whose glyphs keep the same command list,
transform and advance. -/
theorem claim5_geometry_frame (it : InputTransform)
    (paragraphs : List (List ShapedFragment × Bool)) :
    (∀ (g : GlyphPath) (off : DVec2),
      (g.translate off).cmds = g.cmds ∧ (g.translate off).transform = g.transform ∧
      (g.translate off).advance_x = g.advance_x) ∧
    List.Forall₂ (fun (pr : List ShapedFragment × Bool) (p : ParagraphInfo) =>
      p.is_rtl = pr.2 ∧ List.Forall₂ fragFrame pr.1 p.shaped_fragments)
      paragraphs (perform_layout_on_paragraphs it paragraphs).2 := by
  constructor
  · exact fun g off => ⟨rfl, rfl, rfl⟩
  · have hb : ∀ p ∈ paragraphs.map
        (fun pr => ParagraphInfo.new pr.1 (max (((it.w : Int) : ℚ) - 2 * PAD) 0) pr.2),
        ∀ l ∈ p.lines, l.first_fragment_index ≤ l.effEnd p.shaped_fragments.length := by
      intro p hp l hl
      rcases List.mem_map.mp hp with ⟨pr, hpr, rfl⟩
      have hg := ParagraphInfo.new_linesGood pr.1
        (max (((it.w : Int) : ℚ) - 2 * PAD) 0) pr.2
      have hm := linesGood_mem _ _ _ 0 hg l hl
      have hlen : (pr.1.map ShapedFragment.length).length = pr.1.length :=
        List.length_map _ _
      show l.first_fragment_index ≤ l.effEnd pr.1.length
      rw [← hlen]
      exact hm.1
    have hframe := layoutParagraphs_fragFrame it ((5 / 4 : ℚ) * (it.size : ℚ))
      (paragraphs.map
        (fun pr => ParagraphInfo.new pr.1 (max (((it.w : Int) : ℚ) - 2 * PAD) 0) pr.2))
      (((it.y : Int) : ℚ) + PAD + (5 / 4 : ℚ) * (it.size : ℚ)) hb
    exact (List.forall₂_map_left_iff.mp hframe).imp (fun pr p2 h => ⟨h.1, h.2.2⟩)
theorem resolveParas_isSome {F : Type} (fonts : List (FontId × F)) (inp : Input F)
    (n : Nat) (g : F) (hg : fonts.lookup GLOBAL_FALLBACK_FONT = some g) :
    ∀ (paras : List ((Nat × Nat) × Bool)) (i : Nat),
      i + paras.length ≤ inp.paragraphs_fonts.length →
      (resolveParas fonts inp n i paras).isSome := by
  intro paras
  induction paras with
  | nil => intro i hi; rfl
  | cons pr rest ih =>
    intro i hi
    have hidx : i < inp.paragraphs_fonts.length := by
      simp only [List.length_cons] at hi
      omega
    have hfid : inp.paragraphs_fonts[i]? = some inp.paragraphs_fonts[i] :=
      List.getElem?_eq_getElem hidx
    have hres : (resolve_font fonts inp.paragraphs_fonts[i] inp.fallback_font).isSome := by
      unfold resolve_font
      rw [hg]
      rfl
    obtain ⟨f, hf⟩ := Option.isSome_iff_exists.mp hres
    have hpf : resolve_paragraph_font fonts inp i = some f := by
      unfold resolve_paragraph_font
      rw [hfid]
      exact hf
    have hih := ih (i + 1) (by simp only [List.length_cons] at hi; omega)
    obtain ⟨tl, htl⟩ := Option.isSome_iff_exists.mp hih
    simp only [resolveParas, hpf, htl]
    rfl

/-- Claim 7 (amended): for every box geometry and font size, and every input
index within the bounds of the stored input list whose bidi paragraphs are
covered by its per-paragraph font list, with the global fallback font
registered, the entry point returns some (possibly empty) path list. -/
theorem claim7_layout_total (F : Type) (shape : List Char → Bool → List ShapedFragment)
    (fonts : List (FontId × F)) (inputs : List (Input F))
    (bidi : List Char → List ((Nat × Nat) × Bool))
    (x y w h : Int) (size : Nat) (input : Nat) (g : F)
    (h1 : input < inputs.length)
    (hg : fonts.lookup GLOBAL_FALLBACK_FONT = some g)
    (hcover : ∀ inp, inputs[input]? = some inp →
      (bidi inp.text).length ≤ inp.paragraphs_fonts.length) :
    (get_paths shape fonts inputs bidi x y w h size input).isSome := by
  have hinp : inputs[input]? = some inputs[input] := List.getElem?_eq_getElem h1
  have hcov := hcover inputs[input] hinp
  have hps := resolveParas_isSome fonts inputs[input] (bidi inputs[input].text).length g hg
    (bidi inputs[input].text) 0 (by omega)
  obtain ⟨ps, hps2⟩ := Option.isSome_iff_exists.mp hps
  show (resolve_input shape fonts inputs bidi ⟨x, y, w, h, size⟩ input).isSome
  unfold resolve_input
  rw [hinp]
  simp only [hps2]
  rfl

/-- Claim 7 counterexample: index 4 is out of the bounds of the four stored
inputs, so the entry point aborts (modelled as none) instead of returning a
path list. -/
theorem claim7_counterexample :
    get_paths (fun _ _ => []) AppState.newFonts AppState.newInputs (fun _ => [])
      0 0 600 100 16 4 = none := rfl

/-- Witness for claim 7: the first stored input laid out with one bidi
paragraph covering its whole text. -/
theorem claim7_witness :
    (0 < AppState.newInputs.length) ∧
    (AppState.newFonts.lookup GLOBAL_FALLBACK_FONT = some FontData.ptSerif) ∧
    (get_paths (fun _ _ => []) AppState.newFonts AppState.newInputs
      (fun t => [((0, t.length), false)]) 0 0 600 100 16 0).isSome :=
  ⟨by decide, rfl,
    claim7_layout_total FontData (fun _ _ => []) AppState.newFonts AppState.newInputs
      (fun t => [((0, t.length), false)]) 0 0 600 100 16 0 FontData.ptSerif (by decide) rfl
      (by
        intro inp hinp
        have hfonts : (AppState.newInputs[0]?).map Input.paragraphs_fonts
            = some ["seoul"] := rfl
        rw [hinp, Option.map_some'] at hfonts
        rw [Option.some.inj hfonts]
        simp)⟩

/-- Modelled from the spec: the binary font files of the repository and the
external shaping engine are not part of src/, so the shaped glyphs for the
scenario paragraph of spec section 8 are modelled after sections 4.3 and 6:
one glyph per character, a uniform positive advance of ten pixels at size
sixteen, the running baseline baked into every glyph outline, a simple
nonempty outline for every ink character and an empty outline (hence an
empty path string) for the space character. -/
def modelGlyph (c : Char) (i : Nat) : GlyphPath :=
  ⟨renderCmds (if c = ' ' then [] else
      [PathCmd.M ((10 : ℚ) * (i : ℚ), 0), PathCmd.L ((10 : ℚ) * (i : ℚ) + 8, -8), PathCmd.Z]),
   ⟨1, 0, 0, 1, 0, 0⟩,
   (if c = ' ' then [] else
      [PathCmd.M ((10 : ℚ) * (i : ℚ), 0), PathCmd.L ((10 : ℚ) * (i : ℚ) + 8, -8), PathCmd.Z]),
   10⟩

/-- The glyph run of one fragment under the modelled shaping. -/
def modelGlyphs : Nat → List Char → List GlyphPath
  | _, [] => []
  | i, c :: cs => modelGlyph c i :: modelGlyphs (i + 1) cs

/-- One shaped fragment of the scenario under the modelled shaping. -/
def modelFragment (s : String) : ShapedFragment :=
  ShapedFragment.new (modelGlyphs 0 s.toList)

/-- The two line break segments of the paragraph Hello World. -/
def helloWorldFragments : List ShapedFragment :=
  [modelFragment "Hello ", modelFragment "World"]

/-- The scenario run: one left-to-right paragraph at font size sixteen in a
六hundred by one hundred box at the origin. -/
def helloWorldRun : List String × List ParagraphInfo :=
  perform_layout_on_paragraphs ⟨0, 0, 600, 100, 16⟩ [(helloWorldFragments, false)]

/-- The glyphs of a fragment run paired with the baseline X at which the
layout loop places their fragment. -/
def glyphPlacements (is_rtl : Bool) : ℚ → List ShapedFragment → List (GlyphPath × ℚ)
  | _, [] => []
  | bx, f :: fs =>
    f.glyphs.map (fun g => (g, if is_rtl then bx - f.length else bx)) ++
      glyphPlacements is_rtl (if is_rtl then bx - f.length else bx + f.length) fs

/-- X coordinate of the first outline point of a glyph (its leading move
command), zero for an empty outline. -/
def firstX (g : GlyphPath) : ℚ :=
  match g.cmds with
  | PathCmd.M p :: _ => p.1
  | _ => 0

theorem layoutFragments_strings (is_rtl : Bool) (hy : ℚ) :
    ∀ (fs : List ShapedFragment) (bx : ℚ),
      (layoutFragments is_rtl hy bx fs).2.1 =
        (glyphPlacements is_rtl bx fs).map
          (fun p => renderCmds (p.1.cmds.map (shiftCmd (p.2, hy)))) := by
  intro fs
  induction fs with
  | nil => intro bx; rfl
  | cons f fs ih =>
    intro bx
    cases is_rtl with
    | false =>
      show (f.glyphs.map (fun g => g.translate (bx, hy))).map GlyphPath.svg_path_string ++
          (layoutFragments false hy (bx + f.length) fs).2.1 = _
      rw [ih (bx + f.length)]
      simp [glyphPlacements, List.map_append, List.map_map]
      intro a _
      rfl
    | true =>
      show (f.glyphs.map (fun g => g.translate (bx - f.length, hy))).map
            GlyphPath.svg_path_string ++
          (layoutFragments true hy (bx - f.length) fs).2.1 = _
      rw [ih (bx - f.length)]
      simp [glyphPlacements, List.map_append, List.map_map]
      intro a _
      rfl

theorem helloWorld_length_1 : (modelFragment "Hello ").length = 60 := by
  show ((modelGlyphs 0 "Hello ".toList).map GlyphPath.advance_x).sum = 60
  rw [show "Hello ".toList = ['H', 'e', 'l', 'l', 'o', ' '] from rfl]
  norm_num [modelGlyphs, modelGlyph]

theorem helloWorld_length_2 : (modelFragment "World").length = 50 := by
  show ((modelGlyphs 0 "World".toList).map GlyphPath.advance_x).sum = 50
  rw [show "World".toList = ['W', 'o', 'r', 'l', 'd'] from rfl]
  norm_num [modelGlyphs, modelGlyph]

theorem helloWorldRun_eq :
    helloWorldRun.1 = (glyphPlacements false 12 helloWorldFragments).map
      (fun p => renderCmds (p.1.cmds.map (shiftCmd (p.2, 32)))) := by
  have hlen : helloWorldFragments.map ShapedFragment.length = [60, 50] := by
    simp [helloWorldFragments, helloWorld_length_1, helloWorld_length_2]
  have hml : max (((600 : Int) : ℚ) - 2 * PAD) 0 = 576 := by norm_num [PAD]
  have hwrap : wrapFrom (max (((600 : Int) : ℚ) - 2 * PAD) 0)
      (helloWorldFragments.map ShapedFragment.length) 0 0 ⟨0, 0, 0, false⟩ []
      = [⟨0, 0, 110, false⟩] := by
    rw [hlen, hml]
    have hc1 : ¬ ((576 : ℚ) < 0 + 60) := by norm_num
    have hc2 : ¬ ((576 : ℚ) < 0 + 60 + 50) := by norm_num
    simp only [wrapFrom, if_neg hc1, if_neg hc2, List.reverse_cons, List.reverse_nil,
      List.nil_append]
    norm_num
  have hpara : ParagraphInfo.new helloWorldFragments
      (max (((600 : Int) : ℚ) - 2 * PAD) 0) false
      = ⟨helloWorldFragments, [⟨0, 0, 110, false⟩], false⟩ := by
    unfold ParagraphInfo.new
    rw [hwrap]
  show (perform_layout_on_paragraphs ⟨0, 0, 600, 100, 16⟩ [(helloWorldFragments, false)]).1 = _
  unfold perform_layout_on_paragraphs
  simp only [List.map_cons, List.map_nil]
  rw [hpara]
  simp only [layoutParagraphs, layoutLines, layoutLine, LineInfo.effEnd, List.append_nil]
  rw [show lineStartX ⟨0, 0, 600, 100, 16⟩ false = 12 from by norm_num [lineStartX, PAD]]
  rw [show ((0 : Int) : ℚ) + PAD + (5 / 4 : ℚ) * ((16 : Nat) : ℚ) = 32 from by
    norm_num [PAD]]
  rw [show (helloWorldFragments.drop 0).take
      ((if false then 0 else helloWorldFragments.length) - 0) = helloWorldFragments from by
    simp [helloWorldFragments]]
  rw [layoutFragments_strings false 32 helloWorldFragments 12]
theorem helloWorld_nonspace_count :
    ((helloWorldFragments.flatMap ShapedFragment.glyphs).filter
      (fun g => !g.cmds.isEmpty)).length = 10 := by decide

theorem helloWorldRun_len : helloWorldRun.1.length = 11 := by
  rw [helloWorldRun_eq, List.length_map]
  decide

/-- Claim 9 counterexample: under the modelled shaping the layout call emits
one path string per glyph, eleven in total for the paragraph Hello World
(the space glyph included), while only ten of its glyphs are non-space
glyphs, so the claimed equality of path string count and non-space glyph
count fails. -/
theorem claim9_counterexample :
    helloWorldRun.1.length = 11 ∧
    ((helloWorldFragments.flatMap ShapedFragment.glyphs).filter
      (fun g => !g.cmds.isEmpty)).length = 10 ∧
    helloWorldRun.1.length ≠
      ((helloWorldFragments.flatMap ShapedFragment.glyphs).filter
        (fun g => !g.cmds.isEmpty)).length := by
  refine ⟨helloWorldRun_len, helloWorld_nonspace_count, ?_⟩
  rw [helloWorldRun_len, helloWorld_nonspace_count]
  decide

/-- Claim 9 (amended): laying out the single left-to-right paragraph Hello
World at font size sixteen in a six hundred by one hundred box with the
default padding emits exactly one path string per shaped glyph — eleven in
all — of which exactly the ten non-space glyphs yield nonempty path
strings, every string being its glyph outline translated to the baseline of
the single line, and the baseline X positions of the placed ink glyphs
strictly increase across the line. -/
theorem claim9_hello_world :
    helloWorldRun.1 = (glyphPlacements false 12 helloWorldFragments).map
      (fun p => renderCmds (p.1.cmds.map (shiftCmd (p.2, 32)))) ∧
    helloWorldRun.1.length = 11 ∧
    (helloWorldRun.1.filter (fun s => !(s == ""))).length = 10 ∧
    ((helloWorldFragments.flatMap ShapedFragment.glyphs).filter
      (fun g => !g.cmds.isEmpty)).length = 10 ∧
    List.Chain' (· < ·) (((glyphPlacements false 12 helloWorldFragments).filter
      (fun p => !p.1.cmds.isEmpty)).map (fun p => p.2 + firstX p.1)) := by
  refine ⟨helloWorldRun_eq, helloWorldRun_len, ?_, helloWorld_nonspace_count, ?_⟩
  · rw [helloWorldRun_eq]
    decide
  · simp [helloWorldFragments, modelFragment, ShapedFragment.new, glyphPlacements,
      modelGlyphs, modelGlyph, firstX, List.chain'_cons]
    norm_num

end WasmPaths
